import Mathlib

/-!
Shallow embedding of the six bare-metal workload programs under
`src/4-soc/csrc/` (bubblesort.c, factorial.c, fibonacci.c, pattern.c,
aliasing.c, complex.c), together with their memory-mapped completion
protocol (result at 0x4, status at 0x104, completion magic at 0x100),
and proofs of the specification's testable properties about them.

Machine `int` values are modelled as unbounded `Int` with explicit
two's-complement wrapping (`wrap32`) exactly where the source can
overflow (the shift-and-add software multiply).  Loop counters are
`Nat` (they stay within `int` range in every program).  Each `main`
is modelled as the ordered list of stores it performs to the fixed
mailbox addresses.

The contents of `bubblesort_data.h` (the fixed 50-element array) are
not part of the sources; following the specification ("a
compile-time-initialized sequence of signed 32-bit integers, length
50") the array is modelled as an arbitrary list of `Int` of length 50
and the sorting claims are proved for every such array.
-/

/-- Two's-complement wrap of an integer into the signed 32-bit range,
modelling what RV32 stores/shifts do on overflow. -/
def wrap32 (x : Int) : Int :=
  (x + 2147483648) % 4294967296 - 2147483648

/-- Loop of `mul` from factorial.c: `while (b > 0) { if (b & 1) result += a;
a <<= 1; b >>= 1; }`.  `a <<= 1` and `result += a` wrap at 32 bits. -/
def mulLoop (a b result : Int) : Int :=
  if b > 0 then
    mulLoop (wrap32 (2 * a)) (b / 2) (if b % 2 = 1 then wrap32 (result + a) else result)
  else result
termination_by b.toNat
decreasing_by omega

/-- Software multiplication `mul` from factorial.c. -/
def mul (a b : Int) : Int := mulLoop a b 0

/-- Fuel-indexed version of the `mul` loop, making the question of
termination of the C `while` loop explicit: `none` means the loop did
not finish within the given number of iterations. -/
def mulFuelLoop : Nat → Int → Int → Int → Option Int
  | 0, _, b, result => if b > 0 then none else some result
  | fuel + 1, a, b, result =>
    if b > 0 then
      mulFuelLoop fuel (wrap32 (2 * a)) (b / 2)
        (if b % 2 = 1 then wrap32 (result + a) else result)
    else some result

/-- `factorial` from factorial.c: `result = 1; for (i = 2; i <= n; i++)
result = mul(result, i);`. -/
def factorial (n : Nat) : Int :=
  (List.range' 2 (n - 1)).foldl (fun result i => mul result (i : Int)) 1

/-- `fib` from fibonacci.c: `if (n <= 1) return n; return fib(n-1) + fib(n-2);`. -/
def fib (n : Nat) : Int :=
  if n ≤ 1 then (n : Int) else fib (n - 1) + fib (n - 2)
termination_by n
decreasing_by all_goals omega

/-- Structural-recursion companion of `fib`, used to evaluate it. -/
def fibS : Nat → Int
  | 0 => 0
  | 1 => 1
  | n + 2 => fibS (n + 1) + fibS n

/-- One iteration of the loop body of pattern.c's `main` on the pair
(state, result): `state++; if (state == 3) state = 0; if (state != 0)
result++;`. -/
def patternStep (s : Int × Int) : Int × Int :=
  let st := if s.1 + 1 = 3 then 0 else s.1 + 1
  (st, if st ≠ 0 then s.2 + 1 else s.2)

/-- State and accumulator of pattern.c's `main` after `k` iterations of
its loop, starting from `state = 0`, `result = 0`. -/
def patternRun : Nat → Int × Int
  | 0 => (0, 0)
  | k + 1 => patternStep (patternRun k)

/-- `loop_a` from aliasing.c: `sum += i` over `i < n`. -/
def loop_a (n : Nat) : Int :=
  (List.range n).foldl (fun sum i => sum + (i : Int)) 0

/-- `loop_b` from aliasing.c: `sum += i * 2` over `i < n`. -/
def loop_b (n : Nat) : Int :=
  (List.range n).foldl (fun sum i => sum + (i : Int) * 2) 0

/-- `loop_c` from aliasing.c: `sum += i * 3` over `i < n`. -/
def loop_c (n : Nat) : Int :=
  (List.range n).foldl (fun sum i => sum + (i : Int) * 3) 0

/-- `loop_d` from aliasing.c: `sum += i * 4` over `i < n`. -/
def loop_d (n : Nat) : Int :=
  (List.range n).foldl (fun sum i => sum + (i : Int) * 4) 0

/-- First call phase of aliasing.c's `main`: 100 rounds of
`loop_a(10) + loop_b(10) + loop_c(10) + loop_d(10)`. -/
def aliasingPhase1 : Int :=
  (List.range 100).foldl
    (fun result _ => result + loop_a 10 + loop_b 10 + loop_c 10 + loop_d 10) 0

/-- Final accumulator of aliasing.c's `main`: phase 1 followed by 100
rounds of `loop_a(8) + loop_c(8) + loop_b(8) + loop_d(8)`. -/
def aliasingResult : Int :=
  (List.range 100).foldl
    (fun result _ => result + loop_a 8 + loop_c 8 + loop_b 8 + loop_d 8) aliasingPhase1

/-- `correlated_loops` from complex.c: 50 outer rounds, each running two
20-iteration inner loops that add/subtract 1 resp. 2 on the parity of
the inner index. -/
def correlated_loops : Int :=
  (List.range 50).foldl
    (fun sum _ =>
      let s1 := (List.range 20).foldl
        (fun t j => if (j &&& 1) ≠ 0 then t + 1 else t - 1) sum
      (List.range 20).foldl
        (fun t k => if (k &&& 1) ≠ 0 then t + 2 else t - 2) s1)
    0

/-- `sequential_branches` from complex.c: a chain of eight independent
conditionals on bits of the loop index. -/
def sequential_branches (n : Nat) : Int :=
  (List.range n).foldl
    (fun sum i =>
      let s1 := if (i &&& 1) ≠ 0 then sum + 1 else sum
      let s2 := if (i &&& 2) ≠ 0 then s1 + 2 else s1
      let s3 := if (i &&& 4) ≠ 0 then s2 + 4 else s2
      let s4 := if (i &&& 8) ≠ 0 then s3 + 8 else s3
      let s5 := if (i &&& 3) = 0 then s4 + 10 else s4
      let s6 := if (i &&& 3) = 1 then s5 + 20 else s5
      let s7 := if (i &&& 3) = 2 then s6 + 30 else s6
      if (i &&& 3) = 3 then s7 + 40 else s7)
    0

/-- `func_a` from complex.c: `if (i < n/2) sum += i; else sum -= i;`. -/
def func_a (n : Nat) : Int :=
  (List.range n).foldl
    (fun sum i => if i < n / 2 then sum + (i : Int) else sum - (i : Int)) 0

/-- `func_b` from complex.c: `if (i >= n/2) sum += i; else sum -= i;`. -/
def func_b (n : Nat) : Int :=
  (List.range n).foldl
    (fun sum i => if i ≥ n / 2 then sum + (i : Int) else sum - (i : Int)) 0

/-- `func_c` from complex.c: `if ((i & 3) < 2) sum += i; else sum -= i;`. -/
def func_c (n : Nat) : Int :=
  (List.range n).foldl
    (fun (sum : Int) (i : Nat) =>
      if (i &&& 3) < 2 then sum + (i : Int) else sum - (i : Int)) 0

/-- Accumulator of complex.c's `main` after phase 1 and the ten
`sequential_branches(32)` calls. -/
def complexPhase2 : Int :=
  (List.range 10).foldl (fun result _ => result + sequential_branches 32) correlated_loops

/-- Final accumulator of complex.c's `main`: 30 further rounds of
`func_a(8) + func_b(8) + func_c(8)`. -/
def complexResult : Int :=
  (List.range 30).foldl
    (fun result _ => result + func_a 8 + func_b 8 + func_c 8) complexPhase2

/-- The conditional swap body of bubblesort.c's inner loop at index `j`:
`if (arr[j] > arr[j+1]) { swap arr[j], arr[j+1]; }`, on a list model of
the array. -/
def swapAt (l : List Int) (j : Nat) : List Int :=
  match j, l with
  | 0, a :: b :: rest => if a > b then b :: a :: rest else a :: b :: rest
  | j + 1, x :: rest => x :: swapAt rest j
  | _, l => l

/-- The inner loop of `bubblesort`: `for (j = 0; j < bound; j++)` doing
the conditional adjacent swap at each `j`. -/
def innerLoop (l : List Int) : Nat → List Int
  | 0 => l
  | m + 1 => swapAt (innerLoop l m) m

/-- The outer loop of `bubblesort`: iteration `i` runs the inner loop
with bound `n - i - 1`. -/
def outerLoop (l : List Int) (n : Nat) : Nat → List Int
  | 0 => l
  | i + 1 => innerLoop (outerLoop l n i) (n - i - 1)

/-- `bubblesort(arr, n)` from bubblesort.c: `n - 1` passes of the inner
loop. -/
def bubblesort (l : List Int) (n : Nat) : List Int :=
  outerLoop l n (n - 1)

/-- One left-to-right bubbling pass carrying the element in hand;
`onePassAux x l` is the effect of a full pass over the list `x :: l`. -/
def onePassAux (x : Int) : List Int → List Int
  | [] => [x]
  | y :: rest => if x > y then y :: onePassAux x rest else x :: onePassAux y rest

/-- One full left-to-right bubbling pass over a list: the reference
form of `innerLoop` used in the correctness proof. -/
def onePass : List Int → List Int
  | [] => []
  | x :: rest => onePassAux x rest

/-- The loop of `verify` from bubblesort.c, scanning `k` adjacent pairs
starting at index `i`: returns 0 on the first descent, else 1. -/
def verifyLoop (l : List Int) : Nat → Nat → Int
  | _, 0 => 1
  | i, k + 1 =>
    if l.getD i 0 > l.getD (i + 1) 0 then 0 else verifyLoop l (i + 1) k

/-- `verify(arr, n)` from bubblesort.c: 1 if `arr[i] <= arr[i+1]` for
all `i < n - 1`, else 0. -/
def verify (l : List Int) (n : Nat) : Int :=
  verifyLoop l 0 (n - 1)

/-- The status word bubblesort.c's `main` writes to 0x104: 0x0F if
`verify(data, 50)` passes after sorting, else 0x01. -/
def bubbleStatus (data : List Int) : Int :=
  if verify (bubblesort data 50) 50 = 1 then 0x0F else 0x01

/-- The claim's sortedness reading for the 50-element array:
`arr[i] <= arr[i+1]` for every `i` with `i + 1 < 50`. -/
def sortedAdj (l : List Int) : Prop :=
  ∀ i : Nat, i + 1 < 50 → l.getD i 0 ≤ l.getD (i + 1) 0

/-- Final memory content at an address after a list of stores executes
in order: the value of the last store to that address, if any. -/
def finalMem : List (Nat × Int) → Nat → Option Int
  | [], _ => none
  | p :: t, a =>
    match finalMem t a with
    | some v => some v
    | none => if p.1 = a then some p.2 else none

/-- Index of the first store to a given address in a store trace. -/
def firstIdx : List (Nat × Int) → Nat → Option Nat
  | [], _ => none
  | p :: t, a => if p.1 = a then some 0 else (firstIdx t a).map (· + 1)

/-- Ordered mailbox stores of factorial.c's `main`. -/
def factorialTrace : List (Nat × Int) :=
  [(0x4, factorial 5), (0x104, 0x0F), (0x100, 0xCAFEF00D)]

/-- Ordered mailbox stores of fibonacci.c's `main`. -/
def fibonacciTrace : List (Nat × Int) :=
  [(0x4, fib 20), (0x104, 0x0F), (0x100, 0xCAFEF00D)]

/-- Ordered mailbox stores of pattern.c's `main`. -/
def patternTrace : List (Nat × Int) :=
  [(0x4, (patternRun 100).2), (0x104, 0x0F), (0x100, 0xCAFEF00D)]

/-- Ordered mailbox stores of aliasing.c's `main`. -/
def aliasingTrace : List (Nat × Int) :=
  [(0x4, aliasingResult), (0x104, 0x0F), (0x100, 0xCAFEF00D)]

/-- Ordered mailbox stores of complex.c's `main`. -/
def complexTrace : List (Nat × Int) :=
  [(0x4, complexResult), (0x104, 0x0F), (0x100, 0xCAFEF00D)]

/-- Ordered mailbox stores of bubblesort.c's `main` for a given initial
array: it stores only the status word and the completion magic. -/
def bubblesortTrace (data : List Int) : List (Nat × Int) :=
  [(0x104, bubbleStatus data), (0x100, 0xCAFEF00D)]

attribute [irreducible] bubblesort bubbleStatus

/-- Every store trace assigns bubblesort's status word one of the two
recognized codes: 0x0F on a passed verification, 0x01 on a failed one. -/
theorem bubbleStatus_cases (data : List Int) :
    bubbleStatus data = 0x0F ∨ bubbleStatus data = 0x01 := by
  unfold bubbleStatus
  split
  · exact Or.inl rfl
  · exact Or.inr rfl

set_option maxRecDepth 40000 in
/-- C2: code_bug evidence.  The loop of pattern.c increments `result` on
every Taken iteration (`state != 0`), which happens 67 times out of 100,
so the value stored to 0x4 is 67, not the 34 announced by the claim and
by the program's own comment. -/
theorem pattern_result_is_67 :
    finalMem patternTrace 0x4 = some ((patternRun 100).2) ∧
    (patternRun 100).2 = 67 ∧ (patternRun 100).2 ≠ 34 := by
  refine ⟨rfl, by decide, by decide⟩

set_option maxRecDepth 40000 in
/-- C6: over the 100 iterations of pattern.c's loop, the branch
condition `state != 0` is false exactly when the iteration index `i`
satisfies `i % 3 = 2`, giving the repeating Taken, Taken, Not-Taken
pattern. -/
theorem pattern_branch_TTN (i : Nat) (h : i < 100) :
    ((patternRun (i + 1)).1 ≠ 0) ↔ i % 3 ≠ 2 := by
  revert i h
  decide

/-- C6 witness: the branch outcome at iteration 2 (the first Not-Taken
slot) matches the claimed rule. -/
theorem pattern_branch_TTN_witness :
    2 < 100 ∧ (((patternRun 3).1 ≠ 0) ↔ 2 % 3 ≠ 2) :=
  ⟨by decide, pattern_branch_TTN 2 (by decide)⟩

set_option maxRecDepth 100000 in
/-- C7: aliasing.c's accumulated result is the closed-form arithmetic
value 100 * (sum of i + 2i + 3i + 4i over i < 10) + 100 * (same sum
over i < 8) = 73000, and that is the value stored at 0x4. -/
theorem aliasing_result_closed_form :
    aliasingResult
      = 100 * (Finset.range 10).sum (fun i => (i : Int) + i * 2 + i * 3 + i * 4)
        + 100 * (Finset.range 8).sum (fun i => (i : Int) + i * 2 + i * 3 + i * 4) ∧
    aliasingResult = 73000 ∧
    finalMem aliasingTrace 0x4 = some aliasingResult := by
  refine ⟨by decide, by decide, rfl⟩

/-- C8: the five workloads other than sorting write the success code
0x0F to 0x104 unconditionally; the sorting workload's status is one of
the recognized codes 0x0F / 0x01 and is the only one with a failure
branch. -/
theorem status_success_unconditional :
    finalMem factorialTrace 0x104 = some 0x0F ∧
    finalMem fibonacciTrace 0x104 = some 0x0F ∧
    finalMem patternTrace 0x104 = some 0x0F ∧
    finalMem aliasingTrace 0x104 = some 0x0F ∧
    finalMem complexTrace 0x104 = some 0x0F ∧
    (∀ data : List Int,
      finalMem (bubblesortTrace data) 0x104 = some (bubbleStatus data) ∧
      (bubbleStatus data = 0x0F ∨ bubbleStatus data = 0x01)) :=
  ⟨rfl, rfl, rfl, rfl, rfl, fun data => ⟨rfl, bubbleStatus_cases data⟩⟩

/-- C3 counterexample: the sorting workload's `main` performs no store
at all to the result address 0x4 (shown on the concrete all-zero
array), while it does store the status word, so the claimed
"result stored to 0x4 before status and magic" fails for it. -/
theorem bubblesort_no_result_store :
    firstIdx (bubblesortTrace (List.replicate 50 0)) 0x4 = none ∧
    firstIdx (bubblesortTrace (List.replicate 50 0)) 0x104 = some 0 ∧
    firstIdx (bubblesortTrace (List.replicate 50 0)) 0x100 = some 1 :=
  ⟨rfl, rfl, rfl⟩

/-- C3 (amended): every workload's final memory holds the completion
magic 0xCAFEF00D at 0x100 and a recognized status code at 0x104; in the
five workloads that store a result to 0x4 the result store strictly
precedes the status and magic stores (indices 0 < 1 and 0 < 2 in the
trace); the sorting workload stores no result word to 0x4 at all. -/
theorem completion_protocol :
    (∀ data : List Int,
      finalMem (bubblesortTrace data) 0x100 = some 0xCAFEF00D ∧
      finalMem (bubblesortTrace data) 0x104 = some (bubbleStatus data) ∧
      (bubbleStatus data = 0x0F ∨ bubbleStatus data = 0x01) ∧
      firstIdx (bubblesortTrace data) 0x4 = none ∧
      firstIdx (bubblesortTrace data) 0x104 = some 0 ∧
      firstIdx (bubblesortTrace data) 0x100 = some 1) ∧
    (finalMem factorialTrace 0x100 = some 0xCAFEF00D ∧
      finalMem factorialTrace 0x104 = some 0x0F ∧
      firstIdx factorialTrace 0x4 = some 0 ∧
      firstIdx factorialTrace 0x104 = some 1 ∧
      firstIdx factorialTrace 0x100 = some 2) ∧
    (finalMem fibonacciTrace 0x100 = some 0xCAFEF00D ∧
      finalMem fibonacciTrace 0x104 = some 0x0F ∧
      firstIdx fibonacciTrace 0x4 = some 0 ∧
      firstIdx fibonacciTrace 0x104 = some 1 ∧
      firstIdx fibonacciTrace 0x100 = some 2) ∧
    (finalMem patternTrace 0x100 = some 0xCAFEF00D ∧
      finalMem patternTrace 0x104 = some 0x0F ∧
      firstIdx patternTrace 0x4 = some 0 ∧
      firstIdx patternTrace 0x104 = some 1 ∧
      firstIdx patternTrace 0x100 = some 2) ∧
    (finalMem aliasingTrace 0x100 = some 0xCAFEF00D ∧
      finalMem aliasingTrace 0x104 = some 0x0F ∧
      firstIdx aliasingTrace 0x4 = some 0 ∧
      firstIdx aliasingTrace 0x104 = some 1 ∧
      firstIdx aliasingTrace 0x100 = some 2) ∧
    (finalMem complexTrace 0x100 = some 0xCAFEF00D ∧
      finalMem complexTrace 0x104 = some 0x0F ∧
      firstIdx complexTrace 0x4 = some 0 ∧
      firstIdx complexTrace 0x104 = some 1 ∧
      firstIdx complexTrace 0x100 = some 2) :=
  ⟨fun data => ⟨rfl, rfl, bubbleStatus_cases data, rfl, rfl, rfl⟩,
    ⟨rfl, rfl, rfl, rfl, rfl⟩, ⟨rfl, rfl, rfl, rfl, rfl⟩, ⟨rfl, rfl, rfl, rfl, rfl⟩,
    ⟨rfl, rfl, rfl, rfl, rfl⟩, ⟨rfl, rfl, rfl, rfl, rfl⟩⟩

/-- The recursive `fib` agrees with its structural companion `fibS`. -/
theorem fib_eq_fibS : ∀ n, fib n = fibS n := by
  intro n
  induction n using Nat.strong_induction_on with
  | _ n ih =>
    match n with
    | 0 => simp [fib, fibS]
    | 1 => simp [fib, fibS]
    | n + 2 =>
      rw [fib, if_neg (by omega)]
      have h1 := ih (n + 1) (by omega)
      have h2 := ih n (by omega)
      simp only [Nat.add_sub_cancel]
      have e1 : n + 2 - 1 = n + 1 := by omega
      rw [e1, h1, h2, fibS]

set_option maxRecDepth 10000 in
/-- Evaluation of the 20th Fibonacci number. -/
theorem fib20 : fib 20 = 6765 := by rw [fib_eq_fibS]; decide

/-- C5: the Fibonacci workload stores `fib(20) = 6765` to address 0x4,
under the base-case convention `fib(0) = 0`, `fib(1) = 1`. -/
theorem fibonacci_result_6765 :
    finalMem fibonacciTrace 0x4 = some (fib 20) ∧ fib 20 = 6765 ∧
    fib 0 = 0 ∧ fib 1 = 1 := by
  refine ⟨rfl, fib20, by rw [fib]; norm_num, by rw [fib]; norm_num⟩

/-- `wrap32` preserves residues modulo 2^32. -/
theorem wrap32_emod (x : Int) : wrap32 x % 4294967296 = x % 4294967296 := by
  unfold wrap32; omega

/-- `wrap32` lands in the signed 32-bit range. -/
theorem wrap32_range (x : Int) : -2147483648 ≤ wrap32 x ∧ wrap32 x < 2147483648 := by
  unfold wrap32; omega

/-- One iteration of the `mul` loop preserves the accumulated product
modulo 2^32: processing the low bit of `b` and doubling `a` keeps
`result + a * b` invariant as a residue. -/
theorem mulStep_emod (a b r : Int) :
    ((if b % 2 = 1 then wrap32 (r + a) else r) + wrap32 (2 * a) * (b / 2)) % 4294967296
      = (r + a * b) % 4294967296 := by
  have hdiv : 2 * (b / 2) + b % 2 = b := Int.ediv_add_emod b 2
  have hmul : (wrap32 (2 * a) * (b / 2)) % 4294967296 = (2 * a * (b / 2)) % 4294967296 := by
    rw [Int.mul_emod, wrap32_emod, ← Int.mul_emod]
  by_cases h2 : b % 2 = 1
  · rw [if_pos h2, Int.add_emod, wrap32_emod, hmul, ← Int.add_emod]
    have e : r + a + 2 * a * (b / 2) = r + a * b := by linear_combination a * hdiv - a * h2
    rw [e]
  · have h0 : b % 2 = 0 := by omega
    rw [if_neg h2, Int.add_emod, hmul, ← Int.add_emod]
    have e : r + 2 * a * (b / 2) = r + a * b := by linear_combination a * hdiv - a * h0
    rw [e]

/-- The `mul` loop, started on a result already in signed range, ends in
signed range and computes `result + a * b` modulo 2^32. -/
theorem mulLoop_spec : ∀ (n : Nat) (a b r : Int), b.toNat ≤ n → 0 ≤ b →
    -2147483648 ≤ r → r < 2147483648 →
    -2147483648 ≤ mulLoop a b r ∧ mulLoop a b r < 2147483648 ∧
      mulLoop a b r % 4294967296 = (r + a * b) % 4294967296 := by
  intro n
  induction n with
  | zero =>
    intro a b r hbn hb hr1 hr2
    have hb0 : b = 0 := by omega
    subst hb0
    rw [mulLoop, if_neg (by omega)]
    refine ⟨hr1, hr2, by ring_nf⟩
  | succ n ih =>
    intro a b r hbn hb hr1 hr2
    by_cases hbz : b > 0
    · rw [mulLoop, if_pos hbz]
      have hr' : -2147483648 ≤ (if b % 2 = 1 then wrap32 (r + a) else r) ∧
          (if b % 2 = 1 then wrap32 (r + a) else r) < 2147483648 := by
        split
        · exact wrap32_range _
        · exact ⟨hr1, hr2⟩
      have hrec := ih (wrap32 (2 * a)) (b / 2) (if b % 2 = 1 then wrap32 (r + a) else r)
        (by omega) (by omega) hr'.1 hr'.2
      exact ⟨hrec.1, hrec.2.1, hrec.2.2.trans (mulStep_emod a b r)⟩
    · have hb0 : b = 0 := by omega
      subst hb0
      rw [mulLoop, if_neg (by omega)]
      refine ⟨hr1, hr2, by ring_nf⟩

/-- `mul` on a non-negative multiplier: in signed range and correct
modulo 2^32. -/
theorem mul_spec_nonneg (a b : Int) (hb : 0 ≤ b) :
    -2147483648 ≤ mul a b ∧ mul a b < 2147483648 ∧
      mul a b % 4294967296 = (a * b) % 4294967296 := by
  have h := mulLoop_spec b.toNat a b 0 (le_refl _) hb (by norm_num) (by norm_num)
  rw [zero_add] at h
  exact h

/-- `mul` on a negative multiplier returns 0: the loop body never runs. -/
theorem mul_neg_zero (a b : Int) (hb : b < 0) : mul a b = 0 := by
  rw [mul, mulLoop, if_neg (by omega)]

/-- The fuel-indexed loop completes within `k` iterations whenever
`b < 2 ^ k`, agreeing with the total `mulLoop`. -/
theorem mulFuelLoop_adequate : ∀ (k : Nat) (a b r : Int), b < 2 ^ k →
    mulFuelLoop k a b r = some (mulLoop a b r) := by
  intro k
  induction k with
  | zero =>
    intro a b r hb
    rw [pow_zero] at hb
    rw [mulFuelLoop, if_neg (by omega), mulLoop, if_neg (by omega)]
  | succ k ih =>
    intro a b r hb
    rw [pow_succ] at hb
    by_cases hbz : b > 0
    · rw [mulFuelLoop, if_pos hbz, mulLoop, if_pos hbz]
      exact ih _ _ _ (by omega)
    · rw [mulFuelLoop, if_neg hbz, mulLoop, if_neg hbz]

/-- C10: for every 32-bit `a` and `b` the `mul` loop terminates (within
32 iterations, witnessed by the fuel-indexed loop), returns `a * b`
modulo 2^32 whenever `b >= 0`, and returns 0 whenever `b < 0`. -/
theorem mul_terminates_and_mod_correct (a b : Int)
    (h1 : -(2 ^ 31) ≤ b) (h2 : b < 2 ^ 31) :
    mulFuelLoop 32 a b 0 = some (mul a b) ∧
    (0 ≤ b → mul a b % 2 ^ 32 = (a * b) % 2 ^ 32) ∧
    (b < 0 → mul a b = 0) := by
  refine ⟨mulFuelLoop_adequate 32 a b 0 (lt_of_lt_of_le h2 (by norm_num)), ?_,
    fun hb => mul_neg_zero a b hb⟩
  intro hb
  have h := (mul_spec_nonneg a b hb).2.2
  norm_num at h ⊢
  exact h

/-- C10 witness: the specification of `mul` instantiated at `a = 3`,
`b = 5`. -/
theorem mul_terminates_and_mod_correct_witness :
    -(2 ^ 31) ≤ (5 : Int) ∧ (5 : Int) < 2 ^ 31 ∧
    (mulFuelLoop 32 3 5 0 = some (mul 3 5) ∧
      (0 ≤ (5 : Int) → mul 3 5 % 2 ^ 32 = ((3 : Int) * 5) % 2 ^ 32) ∧
      ((5 : Int) < 0 → mul 3 5 = 0)) :=
  ⟨by norm_num, by norm_num, mul_terminates_and_mod_correct 3 5 (by norm_num) (by norm_num)⟩

/-- `factorial 5` unfolds to the chain of software multiplications the
loop performs. -/
theorem factorial5_unfold : factorial 5 = mul (mul (mul (mul 1 2) 3) 4) 5 := rfl

/-- Evaluation rule for `mul` on small non-negative inputs whose product
fits in the signed 32-bit range. -/
theorem mul_small (a b c : Int) (hb : 0 ≤ b) (hc : (a * b) % 4294967296 = c)
    (hc1 : -2147483648 ≤ c) (hc2 : c < 2147483648) : mul a b = c := by
  have h := mul_spec_nonneg a b hb
  omega

/-- C4: the factorial workload stores `factorial(5) = 120`, computed by
the shift-and-add software multiply, to address 0x4. -/
theorem factorial_result_120 :
    finalMem factorialTrace 0x4 = some (factorial 5) ∧ factorial 5 = 120 := by
  refine ⟨rfl, ?_⟩
  rw [factorial5_unfold]
  rw [mul_small 1 2 2 (by norm_num) (by norm_num) (by norm_num) (by norm_num)]
  rw [mul_small 2 3 6 (by norm_num) (by norm_num) (by norm_num) (by norm_num)]
  rw [mul_small 6 4 24 (by norm_num) (by norm_num) (by norm_num) (by norm_num)]
  rw [mul_small 24 5 120 (by norm_num) (by norm_num) (by norm_num) (by norm_num)]

theorem onePassAux_length (l : List Int) : ∀ x, (onePassAux x l).length = l.length + 1 := by
  induction l with
  | nil => intro x; rfl
  | cons y rest ih =>
    intro x
    rw [onePassAux]
    split
    · simp [ih x]
    · simp [ih y]

theorem onePassAux_perm (l : List Int) : ∀ x, List.Perm (onePassAux x l) (x :: l) := by
  induction l with
  | nil => intro x; exact List.Perm.refl _
  | cons y rest ih =>
    intro x
    rw [onePassAux]
    split
    · exact ((ih x).cons y).trans (List.Perm.swap x y rest)
    · exact (ih y).cons x

theorem onePassAux_last (l : List Int) : ∀ x, ∃ l2 a, onePassAux x l = l2 ++ [a] ∧
    x ≤ a ∧ ∀ z ∈ l, z ≤ a := by
  induction l with
  | nil => intro x; exact ⟨[], x, rfl, le_refl x, by simp⟩
  | cons y rest ih =>
    intro x
    rw [onePassAux]
    by_cases h : x > y
    · obtain ⟨l2, a, he, hx, hall⟩ := ih x
      rw [if_pos h, he]
      refine ⟨y :: l2, a, rfl, hx, ?_⟩
      intro z hz
      rcases List.mem_cons.mp hz with rfl | hz
      · exact le_trans (le_of_lt h) hx
      · exact hall z hz
    · obtain ⟨l2, a, he, hy, hall⟩ := ih y
      rw [if_neg h, he]
      refine ⟨x :: l2, a, rfl, le_trans (le_of_not_lt h) hy, ?_⟩
      intro z hz
      rcases List.mem_cons.mp hz with rfl | hz
      · exact hy
      · exact hall z hz

theorem onePassAux_snoc (l : List Int) : ∀ x c l2 a, onePassAux x l = l2 ++ [a] →
    onePassAux x (l ++ [c]) = if a > c then l2 ++ [c, a] else l2 ++ [a, c] := by
  induction l with
  | nil =>
    intro x c l2 a he
    rw [onePassAux] at he
    have hl2 : l2 = [] := by
      cases l2 with
      | nil => rfl
      | cons u v => simp at he
    subst hl2
    simp only [List.nil_append] at he
    have hax : a = x := by simpa using he.symm
    subst hax
    show onePassAux a ([] ++ [c]) = _
    by_cases hac : a > c
    · rw [if_pos hac]
      simp [onePassAux, hac]
    · rw [if_neg hac]
      simp [onePassAux, hac]
  | cons y rest ih =>
    intro x c l2 a he
    rw [onePassAux] at he
    show onePassAux x (y :: (rest ++ [c])) = _
    rw [onePassAux]
    by_cases h : x > y
    · rw [if_pos h] at he ⊢
      cases l2 with
      | nil =>
        exfalso
        have := congrArg List.length he
        simp [onePassAux_length] at this
      | cons u l3 =>
        have hu : y = u := by simpa using congrArg (fun t => t.headD 0) he
        subst hu
        have he2 : onePassAux x rest = l3 ++ [a] := by simpa using he
        rw [ih x c l3 a he2]
        split
        · rfl
        · rfl
    · rw [if_neg h] at he ⊢
      cases l2 with
      | nil =>
        exfalso
        have := congrArg List.length he
        simp [onePassAux_length] at this
      | cons u l3 =>
        have hu : x = u := by simpa using congrArg (fun t => t.headD 0) he
        subst hu
        have he2 : onePassAux y rest = l3 ++ [a] := by simpa using he
        rw [ih y c l3 a he2]
        split
        · rfl
        · rfl

theorem onePass_length (l : List Int) : (onePass l).length = l.length := by
  cases l with
  | nil => rfl
  | cons x rest => rw [onePass]; rw [onePassAux_length rest x]; rfl

theorem onePass_perm (l : List Int) : List.Perm (onePass l) l := by
  cases l with
  | nil => exact List.Perm.refl _
  | cons x rest => exact onePassAux_perm rest x

theorem onePass_last (l : List Int) (hne : l ≠ []) :
    ∃ l2 a, onePass l = l2 ++ [a] ∧ ∀ z ∈ l, z ≤ a := by
  cases l with
  | nil => exact absurd rfl hne
  | cons x rest =>
    obtain ⟨l2, a, he, hx, hall⟩ := onePassAux_last rest x
    refine ⟨l2, a, he, ?_⟩
    intro z hz
    rcases List.mem_cons.mp hz with rfl | hz
    · exact hx
    · exact hall z hz

theorem onePass_snoc (l : List Int) (c : Int) (l2 : List Int) (a : Int)
    (hne : l ≠ []) (he : onePass l = l2 ++ [a]) :
    onePass (l ++ [c]) = if a > c then l2 ++ [c, a] else l2 ++ [a, c] := by
  cases l with
  | nil => exact absurd rfl hne
  | cons x rest => exact onePassAux_snoc rest x c l2 a he

theorem swapAt_nil (j : Nat) : swapAt [] j = [] := by
  cases j <;> rfl

theorem swapAt_append (l1 l2 : List Int) :
    swapAt (l1 ++ l2) l1.length = l1 ++ swapAt l2 0 := by
  induction l1 with
  | nil => rfl
  | cons x t ih =>
    show x :: swapAt (t ++ l2) t.length = x :: (t ++ swapAt l2 0)
    rw [ih]

theorem innerLoop_eq (l : List Int) : ∀ m, m < l.length →
    innerLoop l m = onePass (l.take (m + 1)) ++ l.drop (m + 1) := by
  intro m
  induction m with
  | zero =>
    intro h
    cases l with
    | nil => simp at h
    | cons x t =>
      show x :: t = onePass [x] ++ t
      rfl
  | succ m ih =>
    intro h
    have hm : m < l.length := by omega
    show swapAt (innerLoop l m) m = _
    rw [ih hm]
    have hplen : (l.take (m + 1)).length = m + 1 := by
      rw [List.length_take]
      omega
    have hpne : l.take (m + 1) ≠ [] := by
      intro hc
      rw [hc] at hplen
      simp at hplen
    obtain ⟨l2, a, hpa, hmax⟩ := onePass_last (l.take (m + 1)) hpne
    have hl2len : l2.length = m := by
      have hlp := onePass_length (l.take (m + 1))
      rw [hpa] at hlp
      simp [hplen] at hlp
      omega
    obtain ⟨c, hdrop, htake⟩ : ∃ c, l.drop (m + 1) = c :: l.drop (m + 2) ∧
        l.take (m + 2) = l.take (m + 1) ++ [c] := by
      refine ⟨l[m + 1], List.drop_eq_getElem_cons h, ?_⟩
      rw [List.take_succ, List.getElem?_eq_getElem h]
      rfl
    rw [hdrop, hpa]
    have hassoc : (l2 ++ [a]) ++ (c :: l.drop (m + 2))
        = l2 ++ (a :: c :: l.drop (m + 2)) := by simp
    rw [hassoc]
    have hswap : swapAt (l2 ++ (a :: c :: l.drop (m + 2))) m
        = l2 ++ swapAt (a :: c :: l.drop (m + 2)) 0 := by
      rw [← hl2len]
      exact swapAt_append l2 _
    rw [hswap, htake]
    rw [onePass_snoc (l.take (m + 1)) c l2 a hpne hpa]
    show l2 ++ (if a > c then c :: a :: l.drop (m + 2)
        else a :: c :: l.drop (m + 2)) = _
    split
    · simp
    · simp

theorem outerLoop_inv (l : List Int) (n : Nat) (hn : l.length = n) :
    ∀ i, i ≤ n - 1 →
      (outerLoop l n i).length = n ∧
      List.Sorted (· ≤ ·) ((outerLoop l n i).drop (n - i)) ∧
      (∀ x ∈ (outerLoop l n i).take (n - i), ∀ y ∈ (outerLoop l n i).drop (n - i), x ≤ y) := by
  intro i
  induction i with
  | zero =>
    intro _
    refine ⟨hn, ?_, ?_⟩
    · rw [Nat.sub_zero]
      show List.Sorted (· ≤ ·) (l.drop n)
      rw [List.drop_eq_nil_of_le (by omega)]
      exact List.sorted_nil
    · intro x hx y hy
      rw [Nat.sub_zero] at hy
      rw [show (outerLoop l n 0) = l from rfl, List.drop_eq_nil_of_le (by omega)] at hy
      simp at hy
  | succ i ih =>
    intro hi1
    obtain ⟨hlen, hsort, hle⟩ := ih (by omega)
    have hn2 : 2 ≤ n - i := by omega
    have hmlt : n - i - 1 < (outerLoop l n i).length := by omega
    have hm1 : n - i - 1 + 1 = n - i := by omega
    have hstep : outerLoop l n (i + 1)
        = onePass ((outerLoop l n i).take (n - i)) ++ (outerLoop l n i).drop (n - i) := by
      show innerLoop (outerLoop l n i) (n - i - 1) = _
      rw [innerLoop_eq (outerLoop l n i) (n - i - 1) hmlt, hm1]
    have hplen : ((outerLoop l n i).take (n - i)).length = n - i := by
      rw [List.length_take]
      omega
    have hpne : (outerLoop l n i).take (n - i) ≠ [] := by
      intro hc
      rw [hc] at hplen
      simp at hplen
      omega
    obtain ⟨l2, a, hpa, hmax⟩ := onePass_last ((outerLoop l n i).take (n - i)) hpne
    have hl2len : l2.length = n - i - 1 := by
      have hlp := onePass_length ((outerLoop l n i).take (n - i))
      rw [hpa] at hlp
      simp [hplen] at hlp
      omega
    have hmem_a : a ∈ (outerLoop l n i).take (n - i) := by
      have ha : a ∈ onePass ((outerLoop l n i).take (n - i)) := by
        rw [hpa]; simp
      exact (onePass_perm _).mem_iff.mp ha
    have hni1 : n - (i + 1) = n - i - 1 := by omega
    have hsplit : outerLoop l n (i + 1)
        = l2 ++ (a :: (outerLoop l n i).drop (n - i)) := by
      rw [hstep, hpa]
      simp
    refine ⟨?_, ?_, ?_⟩
    · rw [hsplit]
      have hdlen : ((outerLoop l n i).drop (n - i)).length = i := by
        rw [List.length_drop]
        omega
      simp [hl2len, hdlen]
      omega
    · rw [hni1, hsplit, List.drop_left' hl2len, List.sorted_cons]
      constructor
      · intro b hb
        exact hle a hmem_a b hb
      · exact hsort
    · rw [hni1, hsplit, List.take_left' hl2len, List.drop_left' hl2len]
      intro x hx y hy
      have hxp : x ∈ (outerLoop l n i).take (n - i) := by
        have hx2 : x ∈ onePass ((outerLoop l n i).take (n - i)) := by
          rw [hpa]
          exact List.mem_append_left _ hx
        exact (onePass_perm _).mem_iff.mp hx2
      rcases List.mem_cons.mp hy with rfl | hy2
      · exact hmax x hxp
      · exact hle x hxp y hy2

theorem bubblesort_sorted (l : List Int) :
    List.Sorted (· ≤ ·) (bubblesort l l.length) := by
  by_cases hn : l.length = 0
  · have hnil : l = [] := List.eq_nil_of_length_eq_zero hn
    subst hnil
    unfold bubblesort
    exact List.sorted_nil
  · obtain ⟨hlen, hsort, hle⟩ :=
      outerLoop_inv l l.length rfl (l.length - 1) (le_refl _)
    have h1 : l.length - (l.length - 1) = 1 := by omega
    rw [h1] at hsort hle
    unfold bubblesort
    cases hs : outerLoop l l.length (l.length - 1) with
    | nil => exact List.sorted_nil
    | cons h0 t0 =>
      rw [hs] at hsort hle
      rw [List.sorted_cons]
      constructor
      · intro b hb
        refine hle h0 ?_ b ?_
        · show h0 ∈ List.take 1 (h0 :: t0)
          simp
        · show b ∈ List.drop 1 (h0 :: t0)
          simpa using hb
      · simpa using hsort

theorem swapAt_perm (l : List Int) : ∀ j, List.Perm (swapAt l j) l := by
  induction l with
  | nil =>
    intro j
    rw [swapAt_nil]
  | cons x t ih =>
    intro j
    cases j with
    | zero =>
      cases t with
      | nil => exact List.Perm.refl _
      | cons b rest =>
        show List.Perm (if x > b then b :: x :: rest else x :: b :: rest) _
        split
        · exact List.Perm.swap x b rest
        · exact List.Perm.refl _
    | succ j =>
      show List.Perm (x :: swapAt t j) (x :: t)
      exact (ih j).cons x

theorem innerLoop_perm (l : List Int) : ∀ m, List.Perm (innerLoop l m) l := by
  intro m
  induction m with
  | zero => exact List.Perm.refl _
  | succ m ih =>
    show List.Perm (swapAt (innerLoop l m) m) l
    exact (swapAt_perm _ m).trans ih

theorem outerLoop_perm (l : List Int) (n : Nat) : ∀ i, List.Perm (outerLoop l n i) l := by
  intro i
  induction i with
  | zero => exact List.Perm.refl _
  | succ i ih =>
    show List.Perm (innerLoop (outerLoop l n i) (n - i - 1)) l
    exact (innerLoop_perm _ _).trans ih

theorem bubblesort_perm (l : List Int) (n : Nat) : List.Perm (bubblesort l n) l := by
  unfold bubblesort
  exact outerLoop_perm l n (n - 1)

theorem swapAt_drop (l : List Int) : ∀ j k, j + 2 ≤ k → (swapAt l j).drop k = l.drop k := by
  induction l with
  | nil =>
    intro j k _
    rw [swapAt_nil]
  | cons x t ih =>
    intro j k hk
    cases j with
    | zero =>
      cases t with
      | nil => rfl
      | cons b rest =>
        obtain ⟨k2, rfl⟩ : ∃ k2, k = k2 + 2 := ⟨k - 2, by omega⟩
        show List.drop (k2 + 2) (if x > b then b :: x :: rest else x :: b :: rest) = _
        split
        · simp
        · simp
    | succ j =>
      obtain ⟨k2, rfl⟩ : ∃ k2, k = k2 + 1 := ⟨k - 1, by omega⟩
      show List.drop (k2 + 1) (x :: swapAt t j) = List.drop (k2 + 1) (x :: t)
      simp only [List.drop_succ_cons]
      exact ih j k2 (by omega)

theorem innerLoop_drop (l : List Int) : ∀ m k, m + 1 ≤ k →
    (innerLoop l m).drop k = l.drop k := by
  intro m
  induction m with
  | zero => intro k _; rfl
  | succ m ih =>
    intro k hk
    show (swapAt (innerLoop l m) m).drop k = _
    rw [swapAt_drop _ m k (by omega)]
    exact ih k (by omega)

theorem outerLoop_drop (l : List Int) (n : Nat) : ∀ i k, n ≤ k →
    (outerLoop l n i).drop k = l.drop k := by
  intro i
  induction i with
  | zero => intro k _; rfl
  | succ i ih =>
    intro k hk
    show (innerLoop (outerLoop l n i) (n - i - 1)).drop k = _
    by_cases hn : n = 0
    · subst hn
      have hb : (0 : Nat) - i - 1 = 0 := by omega
      rw [hb]
      exact ih k hk
    · rw [innerLoop_drop _ _ k (by omega)]
      exact ih k hk

theorem bubblesort_drop (l : List Int) (n : Nat) :
    (bubblesort l n).drop n = l.drop n := by
  unfold bubblesort
  exact outerLoop_drop l n (n - 1) n (le_refl n)

theorem verifyLoop_eq_one (l : List Int) : ∀ k i, verifyLoop l i k = 1 ↔
    ∀ t, t < k → l.getD (i + t) 0 ≤ l.getD (i + t + 1) 0 := by
  intro k
  induction k with
  | zero =>
    intro i
    simp [verifyLoop]
  | succ k ih =>
    intro i
    rw [verifyLoop]
    by_cases h : l.getD i 0 > l.getD (i + 1) 0
    · rw [if_pos h]
      constructor
      · intro h01
        exact absurd h01 (by norm_num)
      · intro hall
        exfalso
        have h0 := hall 0 (by omega)
        simp only [Nat.add_zero] at h0
        omega
    · rw [if_neg h]
      rw [ih (i + 1)]
      constructor
      · intro hall t ht
        cases t with
        | zero =>
          simpa using le_of_not_lt h
        | succ t2 =>
          have h2 := hall t2 (by omega)
          rw [show i + (t2 + 1) = i + 1 + t2 from by omega]
          exact h2
      · intro hall t ht
        have h2 := hall (t + 1) (by omega)
        rw [show i + 1 + t = i + (t + 1) from by omega]
        exact h2

theorem verify_eq_one (l : List Int) (n : Nat) : verify l n = 1 ↔
    (∀ i, i + 1 < n → l.getD i 0 ≤ l.getD (i + 1) 0) := by
  rw [verify, verifyLoop_eq_one]
  constructor
  · intro h i hi
    have h2 := h i (by omega)
    simpa using h2
  · intro h t ht
    have h2 := h t (by omega)
    simpa using h2

theorem sorted_getD_adj : ∀ (l : List Int), List.Sorted (· ≤ ·) l →
    ∀ i, i + 1 < l.length → l.getD i 0 ≤ l.getD (i + 1) 0 := by
  intro l
  induction l with
  | nil =>
    intro _ i hi
    simp at hi
  | cons x t ih =>
    intro hs i hi
    rw [List.sorted_cons] at hs
    cases t with
    | nil => simp at hi
    | cons y t2 =>
      cases i with
      | zero =>
        simpa using hs.1 y (by simp)
      | succ i2 =>
        have h2 := ih hs.2 i2 (by simpa using hi)
        simpa using h2

/-- C1: for every length-50 array (the fixed dataset of
bubblesort_data.h, modelled from the spec as an arbitrary list of 50
signed integers), after `bubblesort(data, 50)` the array is
non-decreasing (`arr[i] <= arr[i+1]` for all `i` with `i + 1 < 50`),
and the status word written to 0x104 is 0x0F iff that holds and 0x01
iff it fails. -/
theorem bubblesort_sorts_and_status (data : List Int) (h : data.length = 50) :
    sortedAdj (bubblesort data 50) ∧
    (bubbleStatus data = 0x0F ↔ sortedAdj (bubblesort data 50)) ∧
    (bubbleStatus data = 0x01 ↔ ¬ sortedAdj (bubblesort data 50)) := by
  have hlen : (bubblesort data 50).length = 50 := by
    rw [(bubblesort_perm data 50).length_eq, h]
  have hsorted : List.Sorted (· ≤ ·) (bubblesort data 50) := by
    have hbs := bubblesort_sorted data
    rwa [h] at hbs
  have hadj : sortedAdj (bubblesort data 50) := by
    intro i hi
    exact sorted_getD_adj _ hsorted i (by omega)
  have hver : verify (bubblesort data 50) 50 = 1 := by
    rw [verify_eq_one]
    intro i hi
    exact hadj i hi
  have hst : bubbleStatus data = 0x0F := by
    unfold bubbleStatus
    rw [if_pos hver]
  refine ⟨hadj, ?_, ?_⟩
  · exact ⟨fun _ => hadj, fun _ => hst⟩
  · constructor
    · intro h01
      rw [hst] at h01
      norm_num at h01
    · intro hna
      exact absurd hadj hna

/-- C1 witness: the sorting claim instantiated on the all-zero
50-element array. -/
theorem bubblesort_sorts_and_status_witness :
    (List.replicate 50 (0 : Int)).length = 50 ∧
    (sortedAdj (bubblesort (List.replicate 50 0) 50) ∧
      (bubbleStatus (List.replicate 50 0) = 0x0F ↔
        sortedAdj (bubblesort (List.replicate 50 0) 50)) ∧
      (bubbleStatus (List.replicate 50 0) = 0x01 ↔
        ¬ sortedAdj (bubblesort (List.replicate 50 0) 50))) :=
  ⟨by decide, bubblesort_sorts_and_status (List.replicate 50 0) (by decide)⟩

/-- C9: `bubblesort(arr, n)` returns a permutation of its input (equal
multisets, hence equal length) and leaves every list position at index
`>= n` unchanged: in the list model of memory, nothing outside
`arr[0..n-1]` is modified. -/
theorem bubblesort_perm_and_frame (arr : List Int) (n : Nat) :
    ((bubblesort arr n : List Int) : Multiset Int) = (arr : Multiset Int) ∧
    (bubblesort arr n).length = arr.length ∧
    (bubblesort arr n).drop n = arr.drop n :=
  ⟨Multiset.coe_eq_coe.mpr (bubblesort_perm arr n),
    (bubblesort_perm arr n).length_eq, bubblesort_drop arr n⟩
